import Mathlib

/-!
Verification development for the crawlsmith repository.

The definitions below are a shallow embedding of the Go source:

* pkg/analyzer (src/unnamed/part_000): calculatePageRank, over exact
  rationals in place of float64;
* pkg/crawler/crawler.go: isWebpageURL, getPathType, resolveURL,
  extractTextLinksAndMetadata (link / title / description extraction over the
  parsed HTML tree), the path-family admission step of crawlPage, the robots
  gate, the rate-limiter construction and the deferred cleanup of a worker.

Behaviour of external Go libraries (net/url, golang.org/x/time/rate) is
modelled from their documented semantics where the crawler calls into them;
each such definition carries a comment saying exactly what it models.
-/

namespace Crawlsmith

/-! ### Go string primitives used by the crawler -/

/-- Characters treated as whitespace by strings.TrimSpace for ASCII input
(space, tab, newline, vertical tab, form feed, carriage return). -/
def isGoSpace (c : Char) : Bool :=
  c = ' ' || c = '\t' || c = '\n' || c = (Char.ofNat 11) || c = (Char.ofNat 12) || c = '\r'

/-- Models strings.TrimSpace on ASCII input: strip leading and trailing
whitespace. -/
def goTrimSpace (s : String) : String :=
  String.mk (((s.data.dropWhile isGoSpace).reverse.dropWhile isGoSpace).reverse)

/-- Models strings.ToLower on ASCII input. -/
def goToLower (s : String) : String :=
  s.map Char.toLower

/-- Models strings.Trim(s, "/"): strip leading and trailing occurrences of the
character. -/
def trimChar (s : String) (c : Char) : String :=
  String.mk (((s.data.dropWhile (· == c)).reverse.dropWhile (· == c)).reverse)

/-! ### Models of net/url behaviour used by the crawler

The crawler delegates URL parsing and reference resolution to net/url.
The following definitions model the pieces it uses, for the URL shapes
exercised in this development (no percent-escapes, at most one "://"). -/

/-- Models the error condition of url.Parse that the claims exercise:
Parse rejects any URL containing an ASCII control character
(U+0000 to U+001F, or U+007F). -/
def urlParseFails (s : String) : Bool :=
  s.data.any (fun c => c.val < 32 || c.val == 127)

/-- Models the Path field of a parsed URL: the fragment and query are held in
separate fields, and for a URL with a scheme the path starts at the first
slash after the authority. -/
def urlPath (s : String) : String :=
  let noFrag := (s.splitOn "#").headD ""
  let noQuery := (noFrag.splitOn "?").headD ""
  match noQuery.splitOn "://" with
  | [] => ""
  | [p] => p
  | _ :: rest => String.mk ((String.intercalate "://" rest).data.dropWhile (· ≠ '/'))

/-- The scheme-plus-authority part of an absolute URL, used by reference
resolution. -/
def schemeHost (s : String) : String :=
  match s.splitOn "://" with
  | [] => ""
  | [_] => ""
  | sch :: rest =>
      sch ++ "://" ++ String.mk ((String.intercalate "://" rest).data.takeWhile (· ≠ '/'))

/-- The directory part of a path: everything up to and including the last
slash. -/
def dirPart (p : String) : String :=
  String.mk ((p.data.reverse.dropWhile (· ≠ '/')).reverse)

/-- Models resolveURL (crawler.go 525-535), which parses both URLs with
net/url and returns base.ResolveReference(ref).String(): a reference that
carries a scheme resolves to itself, an absolute-path reference replaces the
base path, and any other reference replaces the last segment of the base
path. -/
def resolveURLModel (base ref : String) : String :=
  if (ref.splitOn "://").length ≥ 2 then ref
  else if ref.startsWith "/" then schemeHost base ++ ref
  else schemeHost base ++ dirPart (urlPath base) ++ ref

/-! ### URL classification (crawler.go) -/

/-- The extensions rejected by isWebpageURL (crawler.go 331). -/
def nonWebExts : List String :=
  [".jpg", ".jpeg", ".png", ".gif", ".pdf", ".zip", ".mp4", ".mp3", ".css", ".js"]

/-- isWebpageURL (crawler.go 329-338): lowercase the whole URL string, return
false if it ends in one of the extensions, otherwise return false exactly
when the URL contains the fragment delimiter character. -/
def isWebpageURL (pageURL : String) : Bool :=
  let lowercaseURL := goToLower pageURL
  if nonWebExts.any (fun ext => lowercaseURL.endsWith ext) then false
  else !(pageURL.contains '#')

/-- getPathType (crawler.go 515-523). The discarded url.Parse error leaves u
nil when parsing fails, and the next statement dereferences the nil pointer;
that runtime panic is modelled as the none outcome. On success the query is
dropped and the first non-empty path segment, prefixed with a slash, names
the family; a URL with an empty path maps to the root family. -/
def getPathType (rawURL : String) : Option String :=
  if urlParseFails rawURL then none
  else
    let segments := (trimChar (urlPath rawURL) '/').splitOn "/"
    if segments.length > 0 ∧ segments.headD "" ≠ "" then some ("/" ++ segments.headD "")
    else some "/"

/-! ### The rate limiter and the crawlPage pipeline (crawler.go) -/

/-- Models rate.Every from golang.org/x/time/rate: Every converts a minimum
time interval between events into a Limit in events per second, so
Every(d) = 1/d for an interval of d seconds. -/
def rateEvery (intervalSeconds : ℚ) : ℚ := 1 / intervalSeconds

/-- The limiter constructed by NewCrawler (crawler.go 104):
rate.NewLimiter(rate.Every(time.Second), 10). The first component is the
sustained rate in requests per second, the second the burst capacity. -/
def crawlerLimiter : ℚ × Nat := (rateEvery 1, 10)

/-- The ordered stages of crawlPage for one URL (crawler.go 189-279): jitter
sleep, robots gate, visited check, limiter wait, HTTP request with retries,
extraction, admission. The limiter wait at line 208 happens once, before the
retry loop at line 225. -/
inductive PipelineStep where
  | jitterSleep
  | robotsCheck
  | visitedCheck
  | limiterWait
  | httpRequest
  | extractStage
  | admitStage
deriving DecidableEq

def crawlPagePipeline : List PipelineStep :=
  [.jitterSleep, .robotsCheck, .visitedCheck, .limiterWait, .httpRequest,
   .extractStage, .admitStage]

/-! ### The robots gate (crawler.go 113-127, 198-201) -/

/-- The HTTP fetches performed by a single call of isAllowedByRobots: the
function unconditionally issues one GET of robots.txt before answering
(crawler.go 115). -/
def isAllowedByRobotsFetches (domain : String) : List String :=
  ["http://" ++ domain ++ "/robots.txt"]

/-- The decision of one isAllowedByRobots call, given the outcome of the
robots fetch it just performed: none models a transport error; otherwise the
status code is paired with the parsed ruleset when the body parsed. Transport
errors, non-200 statuses and parse errors fail open; otherwise the ruleset is
queried with the agent token MyCrawler (crawler.go 116-126). -/
def isAllowedByRobotsDecision
    (fetched : Option (Nat × Option (String → String → Bool))) (pageURL : String) : Bool :=
  match fetched with
  | none => true
  | some (status, parsed) =>
      if status ≠ 200 then true
      else
        match parsed with
        | none => true
        | some testAgent => testAgent pageURL "MyCrawler"

/-- The robots fetches a whole crawl performs: crawlPage consults the robots
gate once for every URL it processes (crawler.go 198), and every call
fetches afresh; no ruleset is retained between calls. -/
def crawlRobotsFetches (domain : String) (processedURLs : List String) : List String :=
  processedURLs.flatMap (fun _ => isAllowedByRobotsFetches domain)

/-! ### The deferred worker cleanup (crawler.go 181-187) -/

/-- The statements of the deferred cleanup function of crawlPage: receive
from the semaphore channel, WaitGroup.Done, decrement the active counter,
signal the queue condition variable. The function contains no recover
call. -/
inductive DeferStmt where
  | releaseSem
  | wgDone
  | decActive
  | signalCond
  | recoverCall
deriving DecidableEq

def crawlPageDeferBody : List DeferStmt :=
  [.releaseSem, .wgDone, .decActive, .signalCond]

/-- Go panic semantics for a goroutine body with a deferred cleanup: the
deferred statements run while the panic unwinds, the panic is absorbed
exactly when one of them is a recover call, and an unrecovered panic in any
goroutine terminates the whole process. -/
structure WorkerOutcome where
  semReleased : Bool
  processAborted : Bool
deriving DecidableEq

def runWorkerWithPanic (deferBody : List DeferStmt) (panics : Bool) : WorkerOutcome :=
  { semReleased := deferBody.contains .releaseSem,
    processAborted := panics && !(deferBody.contains .recoverCall) }

/-! ### Data model (internal/models/page.go, fields read by the claims) -/

/-- Link (internal/models/page.go): a hyperlink record with target and anchor
text. -/
structure Link where
  toURL : String
  anchorText : String
deriving DecidableEq

/-- Page, restricted to the two fields the PageRank engine reads
(internal/models/page.go: URL and Links). -/
structure Page where
  url : String
  links : List Link
deriving DecidableEq

/-! ### Path-family admission (crawler.go 250-279)

Go maps with string keys are modelled as association lists with first-match
lookup; a write updates the entry in place when the key is present and
appends a fresh entry otherwise, which preserves the set of keys exactly as
a Go map does. -/

/-- Read m[k] with default d for absent keys. -/
def lookupD {β : Type} (m : List (String × β)) (k : String) (d : β) : β :=
  match m.find? (fun e => e.1 == k) with
  | some e => e.2
  | none => d

/-- Write m[k] = f (m[k]), reading the absent value as d: the Go idioms
m[k]++ (d = 0, f = +1), m[k] = t (f constant) and
m[k] = append(m[k], x) (d = [], f = append). -/
def updateEntry {β : Type} (m : List (String × β)) (k : String) (d : β) (f : β → β) :
    List (String × β) :=
  if m.any (fun e => e.1 == k) then m.map (fun e => if e.1 == k then (k, f e.2) else e)
  else m ++ [(k, f d)]

/-- The scheduler state protected by the crawler mutex: the per-family page
counters, the stored pages per family, the per-family delay stamps and the
total crawled counter (crawler.go 51-53, 61). -/
structure SchedState where
  pathCounts : List (String × Nat)
  pathPages : List (String × List Page)
  pathDelays : List (String × Nat)
  totalCrawled : Nat

def initSchedState : SchedState :=
  { pathCounts := [], pathPages := [], pathDelays := [], totalCrawled := 0 }

/-- One admission attempt: the path family of the fetched URL, the normalized
text, the page record built from the response, and the time stamp taken for
the delay map. -/
structure AdmitEvent where
  pathType : String
  normalized : String
  page : Page
  now : Nat

/-- The admission step of crawlPage (crawler.go 250-279), performed under the
scheduler mutex: drop when the family counter has reached maxPerPath, or when
the family is new and the number of counted families has reached
maxPathTypes; otherwise stamp the family delay and, when the normalized text
is non-empty, append the page and increment the counters. maxPerPath and
maxPathTypes are Go ints; they are taken as naturals here, which covers every
configuration the program constructs (1000/1000 default, 50/100 from the
command line). -/
def admitPage (maxPerPath maxPathTypes : Nat) (st : SchedState) (ev : AdmitEvent) :
    SchedState :=
  if maxPerPath ≤ lookupD st.pathCounts ev.pathType 0 ∨
      (maxPathTypes ≤ st.pathCounts.length ∧ lookupD st.pathCounts ev.pathType 0 = 0) then
    st
  else if ev.normalized ≠ "" then
    { st with
      pathDelays := updateEntry st.pathDelays ev.pathType 0 (fun _ => ev.now),
      pathPages := updateEntry st.pathPages ev.pathType [] (fun ps => ps ++ [ev.page]),
      pathCounts := updateEntry st.pathCounts ev.pathType 0 (fun n => n + 1),
      totalCrawled := st.totalCrawled + 1 }
  else
    { st with pathDelays := updateEntry st.pathDelays ev.pathType 0 (fun _ => ev.now) }

/-- A whole crawl, seen through the admission lock: the sequence of admission
attempts the workers perform, serialized by the mutex. -/
def runAdmissions (maxPerPath maxPathTypes : Nat) (events : List AdmitEvent) : SchedState :=
  events.foldl (admitPage maxPerPath maxPathTypes) initSchedState

/-- The distinct path families that have at least one stored page. -/
def familiesWithPages (st : SchedState) : List String :=
  (st.pathPages.filter (fun e => !e.2.isEmpty)).map Prod.fst

/-- The invariant maintained by the admission step: the two maps have
pairwise distinct keys, at most maxPathTypes families are counted, every
family counter equals the number of stored pages of that family and is at
most maxPerPath, and every pathPages entry is non-empty. -/
def AdmissionInv (maxPerPath maxPathTypes : Nat) (st : SchedState) : Prop :=
  (st.pathCounts.map Prod.fst).Nodup ∧
  (st.pathPages.map Prod.fst).Nodup ∧
  st.pathCounts.length ≤ maxPathTypes ∧
  (∀ f, lookupD st.pathCounts f 0 = (lookupD st.pathPages f []).length) ∧
  (∀ f, (lookupD st.pathPages f []).length ≤ maxPerPath) ∧
  (∀ e ∈ st.pathPages, e.2 ≠ [])

/-! ### The PageRank engine (src/unnamed/part_000, calculatePageRank)

float64 arithmetic is embedded as exact rational arithmetic. -/

/-- Write to a Go map modelled as a function with default value: subsequent
reads of the key return the value, other reads are unchanged. -/
def updateFun (f : String → ℚ) (k : String) (v : ℚ) : String → ℚ :=
  fun x => if x == k then v else f x

/-- Damping factor of calculatePageRank. -/
def dampingFactor : ℚ := 85 / 100

/-- Iteration count of calculatePageRank. -/
def pagerankIterations : Nat := 100

/-- linkGraph of calculatePageRank: for key u, the targets of the links of
every page whose URL is u, in page order then link order. -/
def linkGraph (pages : List Page) (u : String) : List String :=
  (pages.filter (fun p => p.url == u)).flatMap (fun p => p.links.map Link.toURL)

/-- inboundLinks of calculatePageRank: for key v, one copy of the source page
URL for every link whose target is v. -/
def inboundLinks (pages : List Page) (v : String) : List String :=
  pages.flatMap (fun p => (p.links.filter (fun l => l.toURL == v)).map (fun _ => p.url))

/-- Contribution of one inbound page URL inside the iteration loop:
dampingFactor * pageRank[inbound] / outboundCount, guarded by
outboundCount > 0. -/
def prContribution (pages : List Page) (pr : String → ℚ) (inb : String) : ℚ :=
  let outboundCount : ℚ := ((linkGraph pages inb).length : ℚ)
  if 0 < outboundCount then dampingFactor * pr inb / outboundCount else 0

/-- The rank computed for one page URL in one iteration of
calculatePageRank. -/
def pageRankValue (pages : List Page) (pr : String → ℚ) (u : String) : ℚ :=
  (1 - dampingFactor) / (pages.length : ℚ) +
    ((inboundLinks pages u).map (prContribution pages pr)).sum

/-- One iteration of the calculatePageRank loop: a fresh map (absent keys
read 0) filled with the new rank of every page, later pages overwriting
earlier ones with the same URL, exactly as the Go map writes do. -/
def pagerankStep (pages : List Page) (pr : String → ℚ) : String → ℚ :=
  pages.foldl (fun acc page => updateFun acc page.url (pageRankValue pages pr page.url))
    (fun _ => 0)

/-- The initial map of calculatePageRank: every page URL bound to
1 / pageCount. -/
def initialPageRank (pages : List Page) : String → ℚ :=
  pages.foldl
    (fun acc page => updateFun acc page.url (1 / (pages.length : ℚ)))
    (fun _ => 0)

/-- calculatePageRank: 100 iterations of the power iteration starting from
the uniform map. -/
def calculatePageRank (pages : List Page) : String → ℚ :=
  (pagerankStep pages)^[pagerankIterations] (initialPageRank pages)

/-- The sum of the PageRank scores written back onto the pages of the crawl
result. -/
def pagerankSum (pages : List Page) : ℚ :=
  (pages.map (fun p => calculatePageRank pages p.url)).sum

/-- Concrete crawl result with a non-empty link graph and a dangling page:
page a links to page b, page b has no links. -/
def c1pages : List Page :=
  [{ url := "a", links := [{ toURL := "b", anchorText := "t" }] },
   { url := "b", links := [] }]

/-- Concrete two-page crawl result in which the link graph is closed: page a
and page b link to each other. -/
def c1closedPages : List Page :=
  [{ url := "a", links := [{ toURL := "b", anchorText := "x" }] },
   { url := "b", links := [{ toURL := "a", anchorText := "y" }] }]

/-! ### The parsed HTML tree and extractTextLinksAndMetadata
(crawler.go 351-494)

html.Parse itself belongs to golang.org/x/net/html; the extraction walk
operates on the parsed tree, which is taken as input here. The walk is
parameterized by the URL resolver it calls for img sources; resolveURLModel
instantiates it in concrete computations. -/

/-- A node of the parsed HTML tree (golang.org/x/net/html Node): a text node
with its data, an element with tag, attributes and children, or any other
node kind (document, comment, doctype) with its data and children. -/
inductive HNode where
  | text (data : String)
  | elem (tag : String) (attrs : List (String × String)) (kids : List HNode)
  | other (data : String) (kids : List HNode)

/-- The Data field of a node: the text of a text node, the tag name of an
element, the raw data of any other node kind. -/
def nodeData : HNode → String
  | .text d => d
  | .elem tag _ _ => tag
  | .other d _ => d

/-- The value left in the Go attribute loop for a key: the last matching
attribute wins, the empty string stands for absence (crawler.go 374-378). -/
def lastAttr (attrs : List (String × String)) (key : String) : String :=
  attrs.foldl (fun acc a => if a.1 == key then a.2 else acc) ""

mutual

/-- extractText inside the anchor handler (crawler.go 380-397): a text node
contributes its trimmed data; an img element returns the resolved src of its
first src attribute when one exists; every other node concatenates the
contributions of its children. -/
def extractAnchorText (resolve : String → String → String) (base : String) :
    HNode → String
  | .text d => goTrimSpace d
  | .elem tag attrs kids =>
      if tag = "img" then
        match attrs.find? (fun a => a.1 == "src") with
        | some a => resolve base a.2
        | none => extractAnchorTextList resolve base kids
      else extractAnchorTextList resolve base kids
  | .other _ kids => extractAnchorTextList resolve base kids

/-- Concatenation of extractAnchorText over a list of children. -/
def extractAnchorTextList (resolve : String → String → String) (base : String) :
    List HNode → String
  | [] => ""
  | n :: t => extractAnchorText resolve base n ++ extractAnchorTextList resolve base t

end

/-- The mutable state of the extraction walk f (crawler.go 364-366): the
links collected so far, the seen href set, the title with its found flag,
and the description. -/
structure ExtractState where
  links : List Link
  seen : List String
  title : String
  foundTitle : Bool
  desc : String
deriving DecidableEq

def initExtractState : ExtractState :=
  { links := [], seen := [], title := "", foundTitle := false, desc := "" }

/-- The content value captured by the meta handler: the last content
attribute (key compared lowercased), trimmed, empty when absent
(crawler.go 419-421). -/
def metaContent (attrs : List (String × String)) : String :=
  attrs.foldl (fun acc a => if goToLower a.1 == "content" then goTrimSpace a.2 else acc) ""

/-- Whether the meta handler saw a name=description attribute, key and value
compared lowercased (crawler.go 416-418). -/
def isDescMeta (attrs : List (String × String)) : Bool :=
  attrs.any (fun a => goToLower a.1 == "name" && goToLower a.2 == "description")

/-- The per-node action of the walk f (crawler.go 369-427): an anchor with a
non-empty href records a link unless the href was seen; a title element with
a first child sets the title once; a meta description with non-empty content
overwrites the description; every other node leaves the state unchanged. -/
def processNode (resolve : String → String → String) (base : String) (n : HNode)
    (st : ExtractState) : ExtractState :=
  match n with
  | .elem tag attrs kids =>
      if tag = "a" then
        if lastAttr attrs "href" = "" then st
        else
          let a0 := goTrimSpace (extractAnchorText resolve base (.elem tag attrs kids))
          let anchorText := if a0 = "" then "N/A" else a0
          if st.seen.contains (lastAttr attrs "href") then st
          else { st with
                 seen := lastAttr attrs "href" :: st.seen,
                 links := st.links ++ [{ toURL := lastAttr attrs "href",
                                         anchorText := anchorText }] }
      else if tag = "title" then
        match kids with
        | [] => st
        | k :: _ =>
            if st.foundTitle then st
            else { st with title := goTrimSpace (nodeData k), foundTitle := true }
      else if tag = "meta" then
        if isDescMeta attrs ∧ metaContent attrs ≠ "" then { st with desc := metaContent attrs }
        else st
      else st
  | _ => st

mutual

/-- The recursive walk f (crawler.go 368-432): act on the node, then visit
its children in order. -/
def visitNode (resolve : String → String → String) (base : String) (n : HNode)
    (st : ExtractState) : ExtractState :=
  match n with
  | .text d => processNode resolve base (.text d) st
  | .elem tag attrs kids =>
      visitNodeList resolve base kids (processNode resolve base (.elem tag attrs kids) st)
  | .other d kids =>
      visitNodeList resolve base kids (processNode resolve base (.other d kids) st)

/-- The walk threaded through a list of siblings. -/
def visitNodeList (resolve : String → String → String) (base : String)
    (ns : List HNode) (st : ExtractState) : ExtractState :=
  match ns with
  | [] => st
  | n :: t => visitNodeList resolve base t (visitNode resolve base n st)

end

mutual

/-- All nodes of a tree in document (preorder) order. -/
def docNodes : HNode → List HNode
  | .text d => [.text d]
  | .elem tag attrs kids => .elem tag attrs kids :: docNodesList kids
  | .other d kids => .other d kids :: docNodesList kids

/-- All nodes of a forest in document order. -/
def docNodesList : List HNode → List HNode
  | [] => []
  | n :: t => docNodes n ++ docNodesList t

end

/-- The link, title and description outputs of extractTextLinksAndMetadata. -/
structure ExtractResult where
  links : List Link
  title : String
  desc : String
deriving DecidableEq

/-- The link, title and description outputs of extractTextLinksAndMetadata
(crawler.go 360-439): walk the parsed tree from the root, then apply the
empty-string defaults of lines 434-439. -/
def extractLinksTitleDesc (resolve : String → String → String) (base : String)
    (doc : HNode) : ExtractResult :=
  let st := visitNode resolve base doc initExtractState
  { links := st.links,
    title := if st.title = "" then "x" else st.title,
    desc := if st.desc = "" then "x" else st.desc }

/-! ### Specification-side readings of the extraction outputs -/

/-- Whether a node is a title element with at least one child: exactly the
nodes on which the walk records a title. -/
def isTitleWithChild : HNode → Bool
  | .elem tag _ kids => tag == "title" && !kids.isEmpty
  | _ => false

/-- The title value the walk records for a title node: the trimmed Data of
its first child. -/
def titleValOf : HNode → String
  | .elem _ _ (k :: _) => goTrimSpace (nodeData k)
  | _ => ""

/-- Whether a node is a meta element that overwrites the description:
name=description with non-empty captured content. -/
def isDescNode : HNode → Bool
  | .elem tag attrs _ => tag == "meta" && (isDescMeta attrs && !(metaContent attrs == ""))
  | _ => false

/-- The description value a meta node writes. -/
def descValOf : HNode → String
  | .elem _ attrs _ => metaContent attrs
  | _ => ""

/-- The link an anchor node contributes before deduplication: its last href
attribute when non-empty, with the anchor text computed by the walk. -/
def anchorEntryOf (resolve : String → String → String) (base : String) :
    HNode → Option Link
  | .elem tag attrs kids =>
      if tag = "a" then
        if lastAttr attrs "href" = "" then none
        else
          some { toURL := lastAttr attrs "href",
                 anchorText :=
                   if goTrimSpace (extractAnchorText resolve base (.elem tag attrs kids)) = ""
                   then "N/A"
                   else goTrimSpace (extractAnchorText resolve base (.elem tag attrs kids)) }
      else none
  | _ => none

/-- The anchors of a node list in document order, before deduplication. -/
def docAnchors (resolve : String → String → String) (base : String)
    (ns : List HNode) : List Link :=
  ns.filterMap (anchorEntryOf resolve base)

/-- First-occurrence-wins deduplication by href against a seen set. -/
def dedupByHref : List Link → List String → List Link
  | [], _ => []
  | l :: rest, seen =>
      if seen.contains l.toURL then dedupByHref rest seen
      else l :: dedupByHref rest (l.toURL :: seen)

/-- The seen set after scanning a list of anchors. -/
def seenAfter : List Link → List String → List String
  | [], seen => seen
  | l :: rest, seen =>
      if seen.contains l.toURL then seenAfter rest seen
      else seenAfter rest (l.toURL :: seen)

/-- Whether a node is a title element, used for the claim C7 reading. -/
def isTitleElem : HNode → Bool
  | .elem tag _ _ => tag == "title"
  | _ => false

/-- Whether a node is a meta element with name=description, used for the
claim C7 reading. -/
def isMetaDescElem : HNode → Bool
  | .elem tag attrs _ => tag == "meta" && isDescMeta attrs
  | _ => false

mutual

/-- The data of all descendant text nodes, in document order. -/
def descTextNodes : HNode → List String
  | .text d => [d]
  | .elem _ _ kids => descTextNodesList kids
  | .other _ kids => descTextNodesList kids

/-- The data of all text nodes of a forest, in document order. -/
def descTextNodesList : List HNode → List String
  | [] => []
  | n :: t => descTextNodes n ++ descTextNodesList t

end

/-- The title value the claim C7 predicts: the first text node of the first
title element of the document, with the default x when absent or empty. -/
def claimTitle (doc : HNode) : String :=
  match (docNodes doc).find? isTitleElem with
  | none => "x"
  | some t =>
      match descTextNodes t with
      | [] => "x"
      | d :: _ => if d = "" then "x" else d

/-- The description value the claim C7 predicts: the content of the first
meta name=description element, with the default x when absent or empty. -/
def claimDesc (doc : HNode) : String :=
  match (docNodes doc).find? isMetaDescElem with
  | none => "x"
  | some m => if descValOf m = "" then "x" else descValOf m

/-- Document with an empty first title, a second title, and two meta
descriptions: the walk returns the second title and the last description,
while claim C7 predicts the default title and the first description. -/
def c7doc : HNode :=
  .other "" [.elem "html" [] [.elem "head" [] [
    .elem "title" [] [],
    .elem "title" [] [.text "Second"],
    .elem "meta" [("name", "description"), ("content", "D1")] [],
    .elem "meta" [("name", "description"), ("content", "D2")] []]]]

/-- Document with a single anchor whose children are a text node and an img
element: the walk concatenates both contributions. -/
def c9doc : HNode :=
  .other "" [.elem "html" [] [.elem "body" [] [
    .elem "a" [("href", "/x")] [.text "hi", .elem "img" [("src", "/p.png")] []]]]]

/-- Document with a single anchor carrying a relative href. -/
def c2doc : HNode :=
  .other "" [.elem "html" [] [.elem "body" [] [
    .elem "a" [("href", "/b")] [.text "link"]]]]

/-- The page the crawler stores for c2doc: the URL of the fetched page
together with the links returned by the extractor (crawler.go 262-265). -/
def c2page : Page :=
  { url := "http://example.com/a",
    links := (extractLinksTitleDesc resolveURLModel "http://example.com/a" c2doc).links }

/-! ### Helper lemmas for the PageRank mass-conservation proof -/

theorem sum_sum_comm {α β M : Type} [AddCommMonoid M] (l1 : List α) (l2 : List β)
    (f : α → β → M) :
    (l1.map (fun a => (l2.map (f a)).sum)).sum
      = (l2.map (fun b => (l1.map (fun a => f a b)).sum)).sum := by
  induction l1 with
  | nil => simp [List.map_const]
  | cons a t ih =>
      simp only [List.map_cons, List.sum_cons, ih, List.sum_map_add]

theorem foldl_updateFun_not_mem (g : String → ℚ) (l : List Page) (b : String → ℚ)
    (u : String) (hu : u ∉ l.map Page.url) :
    (l.foldl (fun acc q => updateFun acc q.url (g q.url)) b) u = b u := by
  induction l generalizing b with
  | nil => rfl
  | cons q t ih =>
      simp only [List.map_cons, List.mem_cons, not_or] at hu
      simp only [List.foldl_cons]
      rw [ih _ hu.2]
      simp [updateFun, hu.1]

theorem foldl_updateFun_eval (g : String → ℚ) (l : List Page) (b : String → ℚ)
    (p : Page) (hnd : (l.map Page.url).Nodup) (hp : p ∈ l) :
    (l.foldl (fun acc q => updateFun acc q.url (g q.url)) b) p.url = g p.url := by
  induction l generalizing b with
  | nil => exact absurd hp (List.not_mem_nil p)
  | cons q t ih =>
      simp only [List.map_cons, List.nodup_cons] at hnd
      simp only [List.foldl_cons]
      rcases List.mem_cons.mp hp with h | h
      · subst h
        rw [foldl_updateFun_not_mem g t _ p.url hnd.1]
        simp [updateFun]
      · exact ih _ hnd.2 h

theorem filter_url_eq_singleton (pages : List Page) (q : Page)
    (hnd : (pages.map Page.url).Nodup) (hq : q ∈ pages) :
    pages.filter (fun p => p.url == q.url) = [q] := by
  induction pages with
  | nil => exact absurd hq (List.not_mem_nil q)
  | cons p₀ t ih =>
      simp only [List.map_cons, List.nodup_cons] at hnd
      rcases List.mem_cons.mp hq with h | h
      · subst h
        rw [List.filter_cons]
        simp only [beq_self_eq_true, if_true]
        congr 1
        rw [List.filter_eq_nil_iff]
        intro a ha hbeq
        exact hnd.1 (by
          rw [beq_iff_eq] at hbeq
          exact hbeq ▸ List.mem_map_of_mem Page.url ha)
      · rw [List.filter_cons]
        have hne : (p₀.url == q.url) = false := by
          rw [beq_eq_false_iff_ne]
          intro he
          exact hnd.1 (he ▸ List.mem_map_of_mem Page.url h)
        rw [hne]
        · exact ih hnd.2 h

theorem sum_indicator_zero (pages : List Page) (t : String)
    (h : ∀ q ∈ pages, q.url ≠ t) :
    (pages.map (fun p => if t == p.url then (1 : ℚ) else 0)).sum = 0 := by
  induction pages with
  | nil => rfl
  | cons p₀ rest ih =>
      simp only [List.map_cons, List.sum_cons]
      have h1 : (t == p₀.url) = false := by
        rw [beq_eq_false_iff_ne]
        exact fun he => h p₀ (List.mem_cons_self p₀ rest) he.symm
      rw [if_neg (by simp [h1]), zero_add]
      exact ih (fun q hq => h q (List.mem_cons_of_mem p₀ hq))

theorem sum_indicator_one (pages : List Page) (t : String)
    (hnd : (pages.map Page.url).Nodup) (hex : ∃ q ∈ pages, q.url = t) :
    (pages.map (fun p => if t == p.url then (1 : ℚ) else 0)).sum = 1 := by
  induction pages with
  | nil => simp at hex
  | cons p₀ rest ih =>
      simp only [List.map_cons, List.nodup_cons] at hnd
      simp only [List.map_cons, List.sum_cons]
      by_cases h : t = p₀.url
      · rw [if_pos (beq_iff_eq.mpr h)]
        rw [sum_indicator_zero rest t]
        · ring
        · intro q hq he
          have hqq : q.url ∈ rest.map Page.url := List.mem_map_of_mem Page.url hq
          rw [he, h] at hqq
          exact hnd.1 hqq
      · have hne : (t == p₀.url) = false := beq_eq_false_iff_ne.mpr h
        rw [if_neg (by simp [hne]), zero_add]
        apply ih hnd.2
        rcases hex with ⟨q, hq, hurl⟩
        rcases List.mem_cons.mp hq with rfl | hmem
        · exact absurd hurl.symm h
        · exact ⟨q, hmem, hurl⟩

theorem cnt_total (pages : List Page) (links : List Link)
    (hnd : (pages.map Page.url).Nodup)
    (hcov : ∀ l ∈ links, ∃ q ∈ pages, q.url = l.toURL) :
    (pages.map (fun p => ((links.filter (fun l => l.toURL == p.url)).length : ℚ))).sum
      = (links.length : ℚ) := by
  induction links with
  | nil => simp [List.map_const]
  | cons l rest ih =>
      have hsplit : ∀ p : Page,
          (((l :: rest).filter (fun x => x.toURL == p.url)).length : ℚ)
            = (if l.toURL == p.url then (1 : ℚ) else 0)
              + ((rest.filter (fun x => x.toURL == p.url)).length : ℚ) := by
        intro p
        rw [List.filter_cons]
        by_cases h : (l.toURL == p.url) = true
        · rw [if_pos h, if_pos h]
          push_cast [List.length_cons]
          ring
        · rw [if_neg h, if_neg h, zero_add]
      calc (pages.map (fun p => (((l :: rest).filter (fun x => x.toURL == p.url)).length : ℚ))).sum
          = (pages.map (fun p => (if l.toURL == p.url then (1 : ℚ) else 0)
              + ((rest.filter (fun x => x.toURL == p.url)).length : ℚ))).sum := by
            exact congrArg List.sum (List.map_congr_left (fun p _ => hsplit p))
        _ = (pages.map (fun p => if l.toURL == p.url then (1 : ℚ) else 0)).sum
              + (pages.map (fun p => ((rest.filter (fun x => x.toURL == p.url)).length : ℚ))).sum := by
            rw [List.sum_map_add]
        _ = 1 + (rest.length : ℚ) := by
            rw [sum_indicator_one pages l.toURL hnd
              (by rcases hcov l (List.mem_cons_self l rest) with ⟨q, hq, he⟩; exact ⟨q, hq, he⟩),
              ih (fun x hx => hcov x (List.mem_cons_of_mem l hx))]
        _ = ((l :: rest).length : ℚ) := by
            push_cast [List.length_cons]
            ring

theorem sum_map_const {α : Type} (l : List α) (c : ℚ) :
    (l.map (fun _ => c)).sum = (l.length : ℚ) * c := by
  induction l with
  | nil => simp
  | cons a t ih =>
      simp only [List.map_cons, List.sum_cons, ih, List.length_cons]
      push_cast
      ring

theorem inbound_contrib_sum (pages : List Page) (F : String → ℚ) (u : String) :
    ((inboundLinks pages u).map F).sum
      = (pages.map (fun q =>
          ((q.links.filter (fun l => l.toURL == u)).length : ℚ) * F q.url)).sum := by
  unfold inboundLinks
  induction pages with
  | nil => rfl
  | cons q t ih =>
      rw [List.flatMap_cons, List.map_append, List.sum_append, ih]
      simp only [List.map_cons, List.sum_cons]
      congr 1
      rw [List.map_map]
      exact sum_map_const _ _

theorem linkGraph_eq (pages : List Page) (q : Page)
    (hnd : (pages.map Page.url).Nodup) (hq : q ∈ pages) :
    linkGraph pages q.url = q.links.map Link.toURL := by
  unfold linkGraph
  rw [filter_url_eq_singleton pages q hnd hq]
  simp

theorem prContribution_eq (pages : List Page) (pr : String → ℚ) (q : Page)
    (hnd : (pages.map Page.url).Nodup) (hq : q ∈ pages) (hnl : q.links ≠ []) :
    prContribution pages pr q.url = dampingFactor * pr q.url / (q.links.length : ℚ) := by
  unfold prContribution
  rw [linkGraph_eq pages q hnd hq]
  simp only [List.length_map]
  rw [if_pos]
  exact_mod_cast List.length_pos.mpr hnl

theorem sum_pagerankStep (pages : List Page) (pr : String → ℚ)
    (hnd : (pages.map Page.url).Nodup)
    (hne : pages ≠ [])
    (hlinks : ∀ p ∈ pages, p.links ≠ [])
    (hcov : ∀ p ∈ pages, ∀ l ∈ p.links, ∃ q ∈ pages, q.url = l.toURL) :
    (pages.map (fun p => pagerankStep pages pr p.url)).sum
      = (1 - dampingFactor) + dampingFactor * (pages.map (fun p => pr p.url)).sum := by
  have hN : ((pages.length : ℚ)) ≠ 0 := by
    exact_mod_cast Nat.cast_ne_zero.mpr (fun h => hne (List.length_eq_zero.mp h))
  calc (pages.map (fun p => pagerankStep pages pr p.url)).sum
      = (pages.map (fun p => pageRankValue pages pr p.url)).sum := by
        exact congrArg List.sum (List.map_congr_left (fun p hp =>
          foldl_updateFun_eval (pageRankValue pages pr) pages _ p hnd hp))
    _ = (pages.map (fun _ => (1 - dampingFactor) / (pages.length : ℚ))).sum
          + (pages.map (fun p =>
              ((inboundLinks pages p.url).map (prContribution pages pr)).sum)).sum := by
        simp only [pageRankValue]
        rw [List.sum_map_add]
    _ = (1 - dampingFactor)
          + (pages.map (fun p => (pages.map (fun q =>
              ((q.links.filter (fun l => l.toURL == p.url)).length : ℚ)
                * prContribution pages pr q.url)).sum)).sum := by
        rw [sum_map_const]
        rw [mul_comm, div_mul_cancel₀ _ hN]
        congr 1
        exact congrArg List.sum (List.map_congr_left (fun p _ =>
          inbound_contrib_sum pages (prContribution pages pr) p.url))
    _ = (1 - dampingFactor)
          + (pages.map (fun q => (pages.map (fun p =>
              ((q.links.filter (fun l => l.toURL == p.url)).length : ℚ)
                * prContribution pages pr q.url)).sum)).sum := by
        congr 1
        exact sum_sum_comm pages pages (fun p q =>
          ((q.links.filter (fun l => l.toURL == p.url)).length : ℚ)
            * prContribution pages pr q.url)
    _ = (1 - dampingFactor)
          + (pages.map (fun q => dampingFactor * pr q.url)).sum := by
        congr 1
        apply congrArg List.sum
        apply List.map_congr_left
        intro q hq
        rw [List.sum_map_mul_right, cnt_total pages q.links hnd (hcov q hq)]
        rw [prContribution_eq pages pr q hnd hq (hlinks q hq)]
        have hq0 : ((q.links.length : ℚ)) ≠ 0 := by
          exact_mod_cast Nat.cast_ne_zero.mpr
            (fun h => hlinks q hq (List.length_eq_zero.mp h))
        field_simp
    _ = (1 - dampingFactor) + dampingFactor * (pages.map (fun p => pr p.url)).sum := by
        rw [List.sum_map_mul_left]

theorem sum_initialPageRank (pages : List Page)
    (hnd : (pages.map Page.url).Nodup) (hne : pages ≠ []) :
    (pages.map (fun p => initialPageRank pages p.url)).sum = 1 := by
  have hN : ((pages.length : ℚ)) ≠ 0 := by
    exact_mod_cast Nat.cast_ne_zero.mpr (fun h => hne (List.length_eq_zero.mp h))
  have h1 : (pages.map (fun p => initialPageRank pages p.url)).sum
      = (pages.map (fun _ => 1 / (pages.length : ℚ))).sum := by
    exact congrArg List.sum (List.map_congr_left (fun p hp =>
      foldl_updateFun_eval (fun _ => 1 / (pages.length : ℚ)) pages _ p hnd hp))
  rw [h1, sum_map_const, mul_comm, div_mul_cancel₀ _ hN]

theorem sum_pagerank_iterate (pages : List Page)
    (hnd : (pages.map Page.url).Nodup)
    (hne : pages ≠ [])
    (hlinks : ∀ p ∈ pages, p.links ≠ [])
    (hcov : ∀ p ∈ pages, ∀ l ∈ p.links, ∃ q ∈ pages, q.url = l.toURL)
    (k : Nat) (pr : String → ℚ)
    (hsum : (pages.map (fun p => pr p.url)).sum = 1) :
    (pages.map (fun p => ((pagerankStep pages)^[k] pr) p.url)).sum = 1 := by
  induction k generalizing pr with
  | zero => simpa using hsum
  | succ n ih =>
      simp only [Function.iterate_succ_apply]
      apply ih
      rw [sum_pagerankStep pages pr hnd hne hlinks hcov, hsum]
      norm_num [dampingFactor]

/-! ### Claim C1 -/

/-- C1, counterexample: a crawl result with a non-empty link graph on which
the PageRank values after the 100 power iterations with damping 0.85 do NOT
sum to 1 within 1e-6. Page a links to page b and page b has no outbound
links, so the iteration leaks rank mass at the dangling page; the sum
converges to 171/800. -/
theorem C1_counterexample :
    (∃ p ∈ c1pages, p.links ≠ []) ∧
    ¬ |pagerankSum c1pages - 1| ≤ 1 / 1000000 := by
  constructor
  · exact ⟨{ url := "a", links := [{ toURL := "b", anchorText := "t" }] },
      by with_unfolding_all decide, by with_unfolding_all decide⟩
  · set_option maxRecDepth 40000 in with_unfolding_all decide

/-- C1, amended: when the pages of the crawl result have pairwise distinct
URLs, every page has at least one link, and every link target is itself the
URL of a crawled page (no dangling pages and no edges leaving the page set),
the PageRank values after the 100 power iterations sum to exactly 1 in exact
arithmetic, in particular within 1e-6 of 1.0. -/
theorem C1_pagerank_sum_amended (pages : List Page)
    (hnd : (pages.map Page.url).Nodup)
    (hne : pages ≠ [])
    (hlinks : ∀ p ∈ pages, p.links ≠ [])
    (hcov : ∀ p ∈ pages, ∀ l ∈ p.links, ∃ q ∈ pages, q.url = l.toURL) :
    pagerankSum pages = 1 ∧ |pagerankSum pages - 1| ≤ 1 / 1000000 := by
  have h : pagerankSum pages = 1 := by
    unfold pagerankSum calculatePageRank
    exact sum_pagerank_iterate pages hnd hne hlinks hcov pagerankIterations
      (initialPageRank pages) (sum_initialPageRank pages hnd hne)
  refine ⟨h, ?_⟩
  rw [h]
  norm_num

/-- Witness for C1 amended: the two-page closed graph satisfies the
hypotheses, and its PageRank values sum to exactly 1. -/
theorem C1_pagerank_sum_amended_witness :
    pagerankSum c1closedPages = 1 ∧ |pagerankSum c1closedPages - 1| ≤ 1 / 1000000 :=
  C1_pagerank_sum_amended c1closedPages (by decide) (by decide) (by decide) (by decide)

/-! ### Claim C3 -/

/-- C3, counterexample: the limiter of NewCrawler is built with
rate.Every(time.Second), which is a sustained rate of 1 request per second,
not the 10 requests per second the claim states; only the burst is 10. -/
theorem C3_counterexample :
    crawlerLimiter.1 = 1 ∧ (1 : ℚ) ≠ 10 ∧ crawlerLimiter.2 = 10 := by
  refine ⟨?_, by norm_num, rfl⟩
  norm_num [crawlerLimiter, rateEvery]

/-- C3, amended: the shared token-bucket limiter is constructed with a
sustained rate of 1 request per second and a burst capacity of 10, and each
crawlPage invocation waits on the limiter once, before the HTTP request
stage (retries inside one invocation reuse that single wait). -/
theorem C3_limiter_amended :
    crawlerLimiter = (1, 10) ∧
    crawlPagePipeline.indexOf PipelineStep.limiterWait
      < crawlPagePipeline.indexOf PipelineStep.httpRequest := by
  constructor
  · have h1 : crawlerLimiter.1 = 1 := by norm_num [crawlerLimiter, rateEvery]
    have h2 : crawlerLimiter.2 = 10 := rfl
    exact Prod.ext h1 h2
  · decide

/-! ### Claim C5 -/

/-- C5, counterexample: a crawl that processes two URLs fetches robots.txt
twice, not at most once; nothing is cached between the two allow/deny
queries. -/
theorem C5_counterexample :
    (crawlRobotsFetches "example.com"
        ["http://example.com/", "http://example.com/a"]).length = 2 ∧
    ¬ ((crawlRobotsFetches "example.com"
        ["http://example.com/", "http://example.com/a"]).length ≤ 1) := by
  exact ⟨rfl, by decide⟩

/-- C5, amended: every allow/deny query performs its own fresh fetch and
parse of robots.txt, so a crawl that processes n URLs fetches robots.txt
exactly n times; each successfully parsed response is queried with the agent
token MyCrawler, and fetch or parse failures fail open. -/
theorem C5_robots_amended (domain : String) (processedURLs : List String)
    (testAgent : String → String → Bool) (pageURL : String) :
    (crawlRobotsFetches domain processedURLs).length = processedURLs.length ∧
    isAllowedByRobotsDecision (some (200, some testAgent)) pageURL
      = testAgent pageURL "MyCrawler" ∧
    isAllowedByRobotsDecision none pageURL = true ∧
    isAllowedByRobotsDecision (some (404, some testAgent)) pageURL = true ∧
    isAllowedByRobotsDecision (some (200, none)) pageURL = true := by
  refine ⟨?_, rfl, rfl, by simp [isAllowedByRobotsDecision], rfl⟩
  induction processedURLs with
  | nil => rfl
  | cons u t ih =>
      simp only [crawlRobotsFetches, List.flatMap_cons, List.length_append,
        List.length_cons] at ih ⊢
      rw [ih]
      simp [isAllowedByRobotsFetches]
      omega

/-! ### Claim C6 -/

/-- C6: the deferred cleanup of crawlPage releases the semaphore token while
a panic unwinds, but the function contains no recover call, so the panic is
not caught and an unrecovered goroutine panic aborts the whole process; the
claim that a panic in one worker cannot abort the crawl fails. -/
theorem C6_panic_not_caught :
    (runWorkerWithPanic crawlPageDeferBody true).semReleased = true ∧
    crawlPageDeferBody.contains DeferStmt.recoverCall = false ∧
    (runWorkerWithPanic crawlPageDeferBody true).processAborted = true := by
  exact ⟨rfl, rfl, rfl⟩

/-! ### Claim C8 -/

/-- C8, counterexample: isWebpageURL tests the suffix of the whole URL
string, not of its path. The URL http://example.com/page?f=.jpg has path
/page, which ends in no banned extension, and contains no fragment
delimiter, so the claimed characterization says true; the function returns
false because the query string makes the whole URL end in .jpg. -/
theorem C8_counterexample :
    isWebpageURL "http://example.com/page?f=.jpg" = false ∧
    urlPath "http://example.com/page?f=.jpg" = "/page" ∧
    nonWebExts.all
      (fun ext => !(goToLower (urlPath "http://example.com/page?f=.jpg")).endsWith ext)
      = true ∧
    ("http://example.com/page?f=.jpg".contains '#') = false := by
  refine ⟨by with_unfolding_all decide, by with_unfolding_all decide,
    by with_unfolding_all decide, by with_unfolding_all decide⟩

/-- C8, amended: isWebpageURL u returns false exactly when the lowercased
URL string as a whole ends in one of the ten extensions, or when u contains
the fragment delimiter character. -/
theorem C8_isWebpageURL_amended (u : String) :
    isWebpageURL u = false ↔
      (∃ ext ∈ nonWebExts, (goToLower u).endsWith ext = true) ∨
        u.contains '#' = true := by
  unfold isWebpageURL
  by_cases h : nonWebExts.any (fun ext => (goToLower u).endsWith ext) = true
  · rw [if_pos h]
    simp only [List.any_eq_true] at h
    simp only [true_iff]
    exact Or.inl h
  · rw [if_neg h]
    simp only [List.any_eq_true] at h
    constructor
    · intro hc
      right
      simpa using hc
    · rintro (hex | hc)
      · exact absurd hex h
      · simp [hc]

/-! ### Helper lemmas for the admission invariant -/

theorem updateEntry_cons_ne {β : Type} (e : String × β) (t : List (String × β))
    (k : String) (d : β) (f : β → β) (he : (e.1 == k) = false) :
    updateEntry (e :: t) k d f = e :: updateEntry t k d f := by
  unfold updateEntry
  rw [List.any_cons, he, Bool.false_or]
  by_cases h : t.any (fun x => x.1 == k) = true
  · rw [if_pos h, if_pos h, List.map_cons, he]
    simp
  · rw [if_neg h, if_neg h, List.cons_append]

theorem lookupD_cons_ne {β : Type} (e : String × β) (t : List (String × β))
    (k : String) (d : β) (he : (e.1 == k) = false) :
    lookupD (e :: t) k d = lookupD t k d := by
  unfold lookupD
  rw [List.find?_cons_of_neg]
  simp [he]

theorem lookupD_cons_eq {β : Type} (e : String × β) (t : List (String × β))
    (k : String) (d : β) (he : (e.1 == k) = true) :
    lookupD (e :: t) k d = e.2 := by
  unfold lookupD
  rw [List.find?_cons_of_pos]
  exact he

theorem lookupD_updateEntry_self {β : Type} (m : List (String × β)) (k : String)
    (d d' : β) (f : β → β) :
    lookupD (updateEntry m k d f) k d' = f (lookupD m k d) := by
  induction m with
  | nil =>
      simp [updateEntry, lookupD]
  | cons e t ih =>
      by_cases he : (e.1 == k) = true
      · have hany : ((e :: t).any (fun x => x.1 == k)) = true := by
          rw [List.any_cons, he, Bool.true_or]
        unfold updateEntry
        rw [if_pos hany, List.map_cons, if_pos he]
        rw [lookupD_cons_eq _ _ _ _ (by simp), lookupD_cons_eq _ _ _ _ he]
      · have he' : (e.1 == k) = false := by simpa using he
        rw [updateEntry_cons_ne e t k d f he', lookupD_cons_ne _ _ _ _ he',
          lookupD_cons_ne _ _ _ _ he']
        exact ih

theorem lookupD_updateEntry_other {β : Type} (m : List (String × β)) (k k' : String)
    (d d' : β) (f : β → β) (hne : k' ≠ k) :
    lookupD (updateEntry m k d f) k' d' = lookupD m k' d' := by
  have hkk : (k == k') = false := by
    rw [beq_eq_false_iff_ne]
    exact fun h => hne h.symm
  induction m with
  | nil =>
      simp only [updateEntry, List.any_nil, Bool.false_eq_true, if_false, List.nil_append]
      rw [lookupD_cons_ne _ _ _ _ hkk]
  | cons e t ih =>
      by_cases he : (e.1 == k) = true
      · have hany : ((e :: t).any (fun x => x.1 == k)) = true := by
          rw [List.any_cons, he, Bool.true_or]
        unfold updateEntry
        rw [if_pos hany, List.map_cons, if_pos he]
        rw [lookupD_cons_ne _ _ _ _ hkk]
        have hek' : (e.1 == k') = false := by
          rw [beq_eq_false_iff_ne]
          intro hh
          exact hne (hh ▸ beq_iff_eq.mp he)
        rw [lookupD_cons_ne _ _ _ _ hek']
        by_cases ht : t.any (fun x => x.1 == k) = true
        · have : lookupD (updateEntry t k d f) k' d' = lookupD t k' d' := ih
          unfold updateEntry at this
          rw [if_pos ht] at this
          exact this
        · have hmap : (t.map (fun e => if e.1 == k then (k, f e.2) else e)) = t := by
            conv_rhs => rw [← List.map_id t]
            apply List.map_congr_left
            intro x hx
            have hx' : (x.1 == k) = false := by
              rcases Bool.eq_false_or_eq_true (x.1 == k) with h | h
              · exact absurd (List.any_eq_true.mpr ⟨x, hx, h⟩) ht
              · exact h
            rw [if_neg (by simp [hx'])]
            rfl
          rw [hmap]
      · have he' : (e.1 == k) = false := by simpa using he
        rw [updateEntry_cons_ne e t k d f he']
        by_cases hek' : (e.1 == k') = true
        · rw [lookupD_cons_eq _ _ _ _ hek', lookupD_cons_eq _ _ _ _ hek']
        · have hek'' : (e.1 == k') = false := by simpa using hek'
          rw [lookupD_cons_ne _ _ _ _ hek'', lookupD_cons_ne _ _ _ _ hek'']
          exact ih

theorem keys_updateEntry {β : Type} (m : List (String × β)) (k : String) (d : β)
    (f : β → β) :
    (updateEntry m k d f).map Prod.fst
      = if m.any (fun e => e.1 == k) then m.map Prod.fst else m.map Prod.fst ++ [k] := by
  unfold updateEntry
  by_cases h : m.any (fun e => e.1 == k) = true
  · rw [if_pos h, if_pos h, List.map_map]
    apply List.map_congr_left
    intro e _
    by_cases he : (e.1 == k) = true
    · show Prod.fst (if (e.1 == k) = true then (k, f e.2) else e) = e.1
      rw [if_pos he]
      exact (beq_iff_eq.mp he).symm
    · show Prod.fst (if (e.1 == k) = true then (k, f e.2) else e) = e.1
      rw [if_neg he]
  · rw [if_neg h, if_neg h, List.map_append]
    rfl

theorem nodup_keys_updateEntry {β : Type} (m : List (String × β)) (k : String) (d : β)
    (f : β → β) (hnd : (m.map Prod.fst).Nodup) :
    ((updateEntry m k d f).map Prod.fst).Nodup := by
  rw [keys_updateEntry]
  by_cases h : m.any (fun e => e.1 == k) = true
  · rw [if_pos h]
    exact hnd
  · rw [if_neg h]
    rw [List.nodup_append]
    refine ⟨hnd, List.nodup_singleton k, ?_⟩
    intro x hx hk
    rcases List.mem_map.mp hx with ⟨e, he, hfst⟩
    rcases List.mem_singleton.mp hk with rfl
    have hbeq : (e.1 == x) = true := beq_iff_eq.mpr hfst
    exact h (List.any_eq_true.mpr ⟨e, he, hbeq⟩)

theorem length_updateEntry {β : Type} (m : List (String × β)) (k : String) (d : β)
    (f : β → β) :
    (updateEntry m k d f).length
      = if m.any (fun e => e.1 == k) then m.length else m.length + 1 := by
  unfold updateEntry
  by_cases h : m.any (fun e => e.1 == k) = true
  · rw [if_pos h, if_pos h, List.length_map]
  · rw [if_neg h, if_neg h, List.length_append, List.length_singleton]

theorem lookupD_eq_default {β : Type} (m : List (String × β)) (k : String) (d : β)
    (h : m.any (fun e => e.1 == k) = false) :
    lookupD m k d = d := by
  have hall : ∀ x ∈ m, ¬(x.1 == k) = true := by
    intro x hx hxk
    have hx2 : (m.any fun e => e.1 == k) = true := List.any_eq_true.mpr ⟨x, hx, hxk⟩
    rw [h] at hx2
    exact Bool.false_ne_true hx2
  have hnone : m.find? (fun e => e.1 == k) = none :=
    List.find?_eq_none.mpr hall
  unfold lookupD
  rw [hnone]

theorem mem_updateEntry {β : Type} {m : List (String × β)} {k : String} {d : β}
    {f : β → β} {e' : String × β} (h : e' ∈ updateEntry m k d f) :
    e' ∈ m ∨ ∃ b, e' = (k, f b) := by
  unfold updateEntry at h
  by_cases hany : m.any (fun e => e.1 == k) = true
  · rw [if_pos hany] at h
    rcases List.mem_map.mp h with ⟨e, he, hfe⟩
    by_cases hek : (e.1 == k) = true
    · rw [if_pos hek] at hfe
      exact Or.inr ⟨e.2, hfe.symm⟩
    · rw [if_neg hek] at hfe
      exact Or.inl (hfe ▸ he)
  · rw [if_neg hany] at h
    rcases List.mem_append.mp h with h | h
    · exact Or.inl h
    · rcases List.mem_singleton.mp h with rfl
      exact Or.inr ⟨d, rfl⟩

theorem find?_of_mem_nodup {β : Type} (m : List (String × β)) (e : String × β)
    (hnd : (m.map Prod.fst).Nodup) (he : e ∈ m) :
    m.find? (fun x => x.1 == e.1) = some e := by
  induction m with
  | nil => exact absurd he (List.not_mem_nil e)
  | cons a t ih =>
      simp only [List.map_cons, List.nodup_cons] at hnd
      rcases List.mem_cons.mp he with rfl | hmem
      · rw [List.find?_cons_of_pos]
        simp
      · have hne : (a.1 == e.1) = false := by
          rw [beq_eq_false_iff_ne]
          intro hh
          exact hnd.1 (hh ▸ List.mem_map_of_mem Prod.fst hmem)
        rw [List.find?_cons_of_neg _ (by simp [hne])]
        exact ih hnd.2 hmem

theorem nodup_subset_length {l₁ l₂ : List String} (h₁ : l₁.Nodup) (hsub : l₁ ⊆ l₂) :
    l₁.length ≤ l₂.length := by
  calc l₁.length = l₁.toFinset.card := (List.toFinset_card_of_nodup h₁).symm
    _ ≤ l₂.toFinset.card := Finset.card_le_card (by
        intro x hx
        rw [List.mem_toFinset] at *
        exact hsub hx)
    _ ≤ l₂.length := l₂.toFinset_card_le

/-! ### The admission invariant and claim C4 -/

theorem admissionInv_init (maxPerPath maxPathTypes : Nat) :
    AdmissionInv maxPerPath maxPathTypes initSchedState := by
  refine ⟨List.nodup_nil, List.nodup_nil, Nat.zero_le _, ?_, ?_, ?_⟩
  · intro f
    rfl
  · intro f
    exact Nat.zero_le _
  · intro e he
    exact absurd he (List.not_mem_nil e)

theorem admissionInv_step (maxPerPath maxPathTypes : Nat) (st : SchedState)
    (ev : AdmitEvent) (hinv : AdmissionInv maxPerPath maxPathTypes st) :
    AdmissionInv maxPerPath maxPathTypes (admitPage maxPerPath maxPathTypes st ev) := by
  obtain ⟨hnd1, hnd2, hlen, hcnt, hcap, hne⟩ := hinv
  unfold admitPage
  by_cases hdrop : maxPerPath ≤ lookupD st.pathCounts ev.pathType 0 ∨
      (maxPathTypes ≤ st.pathCounts.length ∧ lookupD st.pathCounts ev.pathType 0 = 0)
  · rw [if_pos hdrop]
    exact ⟨hnd1, hnd2, hlen, hcnt, hcap, hne⟩
  · rw [if_neg hdrop]
    push_neg at hdrop
    by_cases htext : ev.normalized ≠ ""
    · rw [if_pos htext]
      dsimp only [AdmissionInv]
      refine ⟨nodup_keys_updateEntry _ _ _ _ hnd1, nodup_keys_updateEntry _ _ _ _ hnd2,
        ?_, ?_, ?_, ?_⟩
      · rw [length_updateEntry]
        by_cases hany : (st.pathCounts.any (fun e => e.1 == ev.pathType)) = true
        · rw [if_pos hany]
          exact hlen
        · rw [if_neg hany]
          have hanyf : (st.pathCounts.any (fun e => e.1 == ev.pathType)) = false := by
            rcases Bool.eq_false_or_eq_true
              (st.pathCounts.any (fun e => e.1 == ev.pathType)) with h | h
            · exact absurd h hany
            · exact h
          have h0 : lookupD st.pathCounts ev.pathType 0 = 0 :=
            lookupD_eq_default _ _ _ hanyf
          have hlt : st.pathCounts.length < maxPathTypes := by
            by_contra hc
            exact hdrop.2 (Nat.le_of_not_lt hc) h0
          omega
      · intro f
        by_cases hf : f = ev.pathType
        · subst hf
          rw [lookupD_updateEntry_self, lookupD_updateEntry_self, hcnt ev.pathType,
            List.length_append, List.length_singleton]
        · rw [lookupD_updateEntry_other _ _ _ _ _ _ hf,
            lookupD_updateEntry_other _ _ _ _ _ _ hf]
          exact hcnt f
      · intro f
        by_cases hf : f = ev.pathType
        · subst hf
          rw [lookupD_updateEntry_self, List.length_append, List.length_singleton]
          have hlt : lookupD st.pathCounts ev.pathType 0 < maxPerPath := hdrop.1
          rw [hcnt ev.pathType] at hlt
          omega
        · rw [lookupD_updateEntry_other _ _ _ _ _ _ hf]
          exact hcap f
      · intro e he
        rcases mem_updateEntry he with hmem | ⟨b, rfl⟩
        · exact hne e hmem
        · simp
    · rw [if_neg htext]
      exact ⟨hnd1, hnd2, hlen, hcnt, hcap, hne⟩

theorem admissionInv_run (maxPerPath maxPathTypes : Nat) (events : List AdmitEvent) :
    AdmissionInv maxPerPath maxPathTypes (runAdmissions maxPerPath maxPathTypes events) := by
  unfold runAdmissions
  have h : ∀ (st : SchedState), AdmissionInv maxPerPath maxPathTypes st →
      AdmissionInv maxPerPath maxPathTypes
        (events.foldl (admitPage maxPerPath maxPathTypes) st) := by
    induction events with
    | nil => exact fun st h => h
    | cons ev t ih =>
        intro st h
        exact ih _ (admissionInv_step maxPerPath maxPathTypes st ev h)
  exact h _ (admissionInv_init maxPerPath maxPathTypes)

theorem familiesWithPages_le (maxPerPath maxPathTypes : Nat) (st : SchedState)
    (hinv : AdmissionInv maxPerPath maxPathTypes st) :
    (familiesWithPages st).Nodup ∧ (familiesWithPages st).length ≤ maxPathTypes := by
  obtain ⟨hnd1, hnd2, hlen, hcnt, hcap, hne⟩ := hinv
  have hfilter : st.pathPages.filter (fun e => !e.2.isEmpty) = st.pathPages := by
    rw [List.filter_eq_self]
    intro e he
    simpa [List.isEmpty_iff] using hne e he
  unfold familiesWithPages
  rw [hfilter]
  refine ⟨hnd2, ?_⟩
  have hsub : (st.pathPages.map Prod.fst) ⊆ (st.pathCounts.map Prod.fst) := by
    intro x hx
    rcases List.mem_map.mp hx with ⟨e, he, rfl⟩
    have hfind : st.pathPages.find? (fun y => y.1 == e.1) = some e :=
      find?_of_mem_nodup _ e hnd2 he
    have hlook : lookupD st.pathPages e.1 [] = e.2 := by
      unfold lookupD
      rw [hfind]
    have hpos : 0 < lookupD st.pathCounts e.1 0 := by
      rw [hcnt e.1, hlook]
      exact List.length_pos.mpr (hne e he)
    rcases hfind2 : st.pathCounts.find? (fun y => y.1 == e.1) with _ | a
    · exfalso
      unfold lookupD at hpos
      rw [hfind2] at hpos
      exact Nat.lt_irrefl 0 hpos
    · have ha := List.mem_of_find?_eq_some hfind2
      have hpa : a.1 = e.1 := beq_iff_eq.mp (by simpa using List.find?_some hfind2)
      exact hpa ▸ List.mem_map_of_mem Prod.fst ha
  calc (st.pathPages.map Prod.fst).length
      ≤ (st.pathCounts.map Prod.fst).length := nodup_subset_length hnd2 hsub
    _ = st.pathCounts.length := List.length_map _ _
    _ ≤ maxPathTypes := hlen

/-- C4: over any serialized sequence of admission attempts, the number of
pages stored under any path family never exceeds maxPerPath, and the number
of distinct path families with at least one stored page never exceeds
maxPathTypes; both bounds follow from the admission check performed under the
scheduler mutex before a page is appended. -/
theorem C4_path_family_bounds (maxPerPath maxPathTypes : Nat)
    (events : List AdmitEvent) :
    (∀ f, (lookupD (runAdmissions maxPerPath maxPathTypes events).pathPages f []).length
        ≤ maxPerPath) ∧
    (familiesWithPages (runAdmissions maxPerPath maxPathTypes events)).Nodup ∧
    (familiesWithPages (runAdmissions maxPerPath maxPathTypes events)).length
        ≤ maxPathTypes := by
  have hinv := admissionInv_run maxPerPath maxPathTypes events
  have hfam := familiesWithPages_le maxPerPath maxPathTypes _ hinv
  exact ⟨hinv.2.2.2.2.1, hfam.1, hfam.2⟩

/-! ### Claim C10 -/

/-- C10: getPathType dereferences a nil pointer and panics on any input that
url.Parse rejects, such as a URL containing a control character; on parseable
URLs it returns the path family. -/
theorem C10_getPathType_panics :
    getPathType "http://example.com/a\nb" = none ∧
    getPathType "http://example.com/blog/post?x=1" = some "/blog" ∧
    getPathType "http://example.com/" = some "/" := by
  refine ⟨by with_unfolding_all decide, by with_unfolding_all decide,
    by with_unfolding_all decide⟩

/-! ### The extraction walk as a fold over document order -/

mutual

theorem visitNode_eq_foldl (resolve : String → String → String) (base : String)
    (n : HNode) (st : ExtractState) :
    visitNode resolve base n st
      = (docNodes n).foldl (fun s m => processNode resolve base m s) st := by
  cases n with
  | text d =>
      rw [visitNode, docNodes, List.foldl_cons, List.foldl_nil]
  | elem tag attrs kids =>
      rw [visitNode, docNodes, List.foldl_cons,
        visitNodeList_eq_foldl resolve base kids]
  | other d kids =>
      rw [visitNode, docNodes, List.foldl_cons,
        visitNodeList_eq_foldl resolve base kids]

theorem visitNodeList_eq_foldl (resolve : String → String → String) (base : String)
    (ns : List HNode) (st : ExtractState) :
    visitNodeList resolve base ns st
      = (docNodesList ns).foldl (fun s m => processNode resolve base m s) st := by
  cases ns with
  | nil =>
      rw [visitNodeList, docNodesList, List.foldl_nil]
  | cons n t =>
      rw [visitNodeList, docNodesList, List.foldl_append,
        visitNode_eq_foldl resolve base n, visitNodeList_eq_foldl resolve base t]

end

theorem beq_false_of_ne {a b : String} (h : a ≠ b) : (a == b) = false :=
  beq_eq_false_iff_ne.mpr h

theorem processNode_foundTitle (resolve : String → String → String) (base : String)
    (n : HNode) (st : ExtractState) :
    (processNode resolve base n st).foundTitle = (st.foundTitle || isTitleWithChild n) := by
  cases n with
  | text d => simp [processNode, isTitleWithChild]
  | other d kids => simp [processNode, isTitleWithChild]
  | elem tag attrs kids =>
      simp only [processNode]
      by_cases ha : tag = "a"
      · rw [if_pos ha]
        rw [show isTitleWithChild (HNode.elem tag attrs kids) = false by
          simp [isTitleWithChild, ha], Bool.or_false]
        split_ifs <;> rfl
      · rw [if_neg ha]
        by_cases htl : tag = "title"
        · rw [if_pos htl]
          cases kids with
          | nil =>
              rw [show isTitleWithChild (HNode.elem tag attrs []) = false by
                simp [isTitleWithChild], Bool.or_false]
          | cons k t =>
              dsimp only
              rw [show isTitleWithChild (HNode.elem tag attrs (k :: t)) = true by
                simp [isTitleWithChild, htl, List.isEmpty_cons]]
              by_cases hf : st.foundTitle = true
              · rw [if_pos hf, hf, Bool.true_or]
              · rw [if_neg hf]
                have hf' : st.foundTitle = false := by simpa using hf
                rw [hf', Bool.false_or]
        · rw [if_neg htl]
          rw [show isTitleWithChild (HNode.elem tag attrs kids) = false by
            simp [isTitleWithChild, beq_false_of_ne htl], Bool.or_false]
          by_cases hm : tag = "meta"
          · rw [if_pos hm]
            split_ifs <;> rfl
          · rw [if_neg hm]

theorem processNode_title (resolve : String → String → String) (base : String)
    (n : HNode) (st : ExtractState) :
    (processNode resolve base n st).title
      = if isTitleWithChild n = true ∧ st.foundTitle = false then titleValOf n
        else st.title := by
  cases n with
  | text d => simp [processNode, isTitleWithChild]
  | other d kids => simp [processNode, isTitleWithChild]
  | elem tag attrs kids =>
      simp only [processNode]
      by_cases ha : tag = "a"
      · rw [if_pos ha]
        rw [show isTitleWithChild (HNode.elem tag attrs kids) = false by
          simp [isTitleWithChild, ha]]
        rw [if_neg (show ¬((false = true) ∧ st.foundTitle = false) by simp)]
        split_ifs <;> rfl
      · rw [if_neg ha]
        by_cases htl : tag = "title"
        · rw [if_pos htl]
          cases kids with
          | nil =>
              rw [show isTitleWithChild (HNode.elem tag attrs []) = false by
                simp [isTitleWithChild]]
              rw [if_neg (show ¬((false = true) ∧ st.foundTitle = false) by simp)]
          | cons k t =>
              dsimp only
              rw [show isTitleWithChild (HNode.elem tag attrs (k :: t)) = true by
                simp [isTitleWithChild, htl, List.isEmpty_cons]]
              by_cases hf : st.foundTitle = true
              · rw [if_pos hf,
                  if_neg (show ¬((true = true) ∧ st.foundTitle = false) by simp [hf])]
              · have hf' : st.foundTitle = false := by simpa using hf
                rw [if_neg hf,
                  if_pos (show (true = true) ∧ st.foundTitle = false from ⟨rfl, hf'⟩)]
                rfl
        · rw [if_neg htl]
          rw [show isTitleWithChild (HNode.elem tag attrs kids) = false by
            simp [isTitleWithChild, beq_false_of_ne htl]]
          rw [if_neg (show ¬((false = true) ∧ st.foundTitle = false) by simp)]
          by_cases hm : tag = "meta"
          · rw [if_pos hm]
            split_ifs <;> rfl
          · rw [if_neg hm]

theorem processNode_desc (resolve : String → String → String) (base : String)
    (n : HNode) (st : ExtractState) :
    (processNode resolve base n st).desc
      = if isDescNode n = true then descValOf n else st.desc := by
  cases n with
  | text d => simp [processNode, isDescNode]
  | other d kids => simp [processNode, isDescNode]
  | elem tag attrs kids =>
      simp only [processNode]
      by_cases ha : tag = "a"
      · rw [if_pos ha]
        rw [show isDescNode (HNode.elem tag attrs kids) = false by
          simp [isDescNode, ha]]
        rw [if_neg (show ¬(false = true) by simp)]
        split_ifs <;> rfl
      · rw [if_neg ha]
        by_cases htl : tag = "title"
        · rw [if_pos htl]
          rw [show isDescNode (HNode.elem tag attrs kids) = false by
            simp [isDescNode, htl]]
          rw [if_neg (show ¬(false = true) by simp)]
          cases kids with
          | nil => rfl
          | cons k t =>
              dsimp only
              split_ifs <;> rfl
        · rw [if_neg htl]
          by_cases hm : tag = "meta"
          · rw [if_pos hm]
            by_cases hd : isDescMeta attrs = true ∧ metaContent attrs ≠ ""
            · rw [if_pos hd]
              rw [show isDescNode (HNode.elem tag attrs kids) = true by
                simp [isDescNode, hm, hd.1, hd.2]]
              rw [if_pos rfl]
              rfl
            · rw [if_neg hd]
              rw [show isDescNode (HNode.elem tag attrs kids) = false by
                rcases Bool.eq_false_or_eq_true (isDescNode (HNode.elem tag attrs kids))
                  with h | h
                · exfalso
                  apply hd
                  simp only [isDescNode, Bool.and_eq_true, beq_iff_eq,
                    Bool.not_eq_true', beq_eq_false_iff_ne] at h
                  exact ⟨h.2.1, h.2.2⟩
                · exact h]
              rw [if_neg (show ¬(false = true) by simp)]
          · rw [if_neg hm]
            rw [show isDescNode (HNode.elem tag attrs kids) = false by
              simp [isDescNode, beq_false_of_ne hm]]
            rw [if_neg (show ¬(false = true) by simp)]

theorem processNode_links_seen (resolve : String → String → String) (base : String)
    (n : HNode) (st : ExtractState) :
    ((processNode resolve base n st).links, (processNode resolve base n st).seen)
      = match anchorEntryOf resolve base n with
        | none => (st.links, st.seen)
        | some l =>
            if st.seen.contains l.toURL then (st.links, st.seen)
            else (st.links ++ [l], l.toURL :: st.seen) := by
  cases n with
  | text d => simp [processNode, anchorEntryOf]
  | other d kids => simp [processNode, anchorEntryOf]
  | elem tag attrs kids =>
      simp only [processNode, anchorEntryOf]
      by_cases ha : tag = "a"
      · rw [if_pos ha, if_pos ha]
        by_cases hh : lastAttr attrs "href" = ""
        · rw [if_pos hh, if_pos hh]
        · rw [if_neg hh, if_neg hh]
          by_cases hs : st.seen.contains (lastAttr attrs "href") = true
          · simp only [hs, if_true]
          · have hs' : st.seen.contains (lastAttr attrs "href") = false := by
              simpa using hs
            simp only [hs', Bool.false_eq_true, if_false]
      · rw [if_neg ha, if_neg ha]
        by_cases htl : tag = "title"
        · rw [if_pos htl]
          cases kids with
          | nil => rfl
          | cons k t =>
              dsimp only
              split_ifs <;> rfl
        · rw [if_neg htl]
          by_cases hm : tag = "meta"
          · rw [if_pos hm]
            split_ifs <;> rfl
          · rw [if_neg hm]

theorem foldl_title_found (resolve : String → String → String) (base : String)
    (ns : List HNode) (st : ExtractState) (h : st.foundTitle = true) :
    (ns.foldl (fun s m => processNode resolve base m s) st).title = st.title ∧
    (ns.foldl (fun s m => processNode resolve base m s) st).foundTitle = true := by
  induction ns generalizing st with
  | nil => exact ⟨rfl, h⟩
  | cons n t ih =>
      rw [List.foldl_cons]
      have h1 : (processNode resolve base n st).foundTitle = true := by
        rw [processNode_foundTitle, h, Bool.true_or]
      have h2 : (processNode resolve base n st).title = st.title := by
        rw [processNode_title, if_neg]
        intro hc
        rw [h] at hc
        exact Bool.noConfusion hc.2
      rcases ih (processNode resolve base n st) h1 with ⟨ha, hb⟩
      exact ⟨ha.trans h2, hb⟩

theorem foldl_title_not_found (resolve : String → String → String) (base : String)
    (ns : List HNode) (st : ExtractState) (h : st.foundTitle = false) :
    ((ns.foldl (fun s m => processNode resolve base m s) st).title,
     (ns.foldl (fun s m => processNode resolve base m s) st).foundTitle)
      = match ns.find? isTitleWithChild with
        | none => (st.title, false)
        | some tn => (titleValOf tn, true) := by
  induction ns generalizing st with
  | nil => simp [h]
  | cons n t ih =>
      rw [List.foldl_cons]
      by_cases hn : isTitleWithChild n = true
      · rw [List.find?_cons_of_pos _ hn]
        have h1 : (processNode resolve base n st).foundTitle = true := by
          rw [processNode_foundTitle, hn, Bool.or_true]
        have h2 : (processNode resolve base n st).title = titleValOf n := by
          rw [processNode_title, if_pos ⟨hn, h⟩]
        rcases foldl_title_found resolve base t _ h1 with ⟨ha, hb⟩
        rw [ha, hb, h2]
      · have hn' : isTitleWithChild n = false := by simpa using hn
        rw [List.find?_cons_of_neg _ (by simp [hn'])]
        have h1 : (processNode resolve base n st).foundTitle = false := by
          rw [processNode_foundTitle, h, hn', Bool.false_or]
        have h2 : (processNode resolve base n st).title = st.title := by
          rw [processNode_title, if_neg]
          intro hc
          rw [hn'] at hc
          exact Bool.false_ne_true hc.1
        rw [ih _ h1, h2]

theorem foldl_desc (resolve : String → String → String) (base : String)
    (ns : List HNode) (st : ExtractState) :
    (ns.foldl (fun s m => processNode resolve base m s) st).desc
      = match ns.reverse.find? isDescNode with
        | none => st.desc
        | some m => descValOf m := by
  induction ns generalizing st with
  | nil => rfl
  | cons n t ih =>
      rw [List.foldl_cons, ih, List.reverse_cons, List.find?_append]
      rcases hfind : t.reverse.find? isDescNode with _ | m
      · simp only [Option.none_or]
        by_cases hn : isDescNode n = true
        · rw [List.find?_cons_of_pos _ hn]
          rw [processNode_desc, if_pos hn]
        · rw [List.find?_cons_of_neg _ (by simpa using hn), List.find?_nil]
          rw [processNode_desc, if_neg (by simpa using hn)]
      · rfl

theorem foldl_links_seen (resolve : String → String → String) (base : String)
    (ns : List HNode) (st : ExtractState) :
    (ns.foldl (fun s m => processNode resolve base m s) st).links
      = st.links ++ dedupByHref (docAnchors resolve base ns) st.seen ∧
    (ns.foldl (fun s m => processNode resolve base m s) st).seen
      = seenAfter (docAnchors resolve base ns) st.seen := by
  induction ns generalizing st with
  | nil => simp [docAnchors, dedupByHref, seenAfter]
  | cons n t ih =>
      rw [List.foldl_cons]
      have hstep := processNode_links_seen resolve base n st
      have hanch : docAnchors resolve base (n :: t)
          = match anchorEntryOf resolve base n with
            | none => docAnchors resolve base t
            | some l => l :: docAnchors resolve base t := by
        rw [docAnchors, List.filterMap_cons]
        rcases anchorEntryOf resolve base n with _ | l
        · rfl
        · rfl
      rcases hent : anchorEntryOf resolve base n with _ | l
      · rw [hent] at hstep hanch
        have hl : (processNode resolve base n st).links = st.links :=
          congrArg Prod.fst hstep
        have hs : (processNode resolve base n st).seen = st.seen :=
          congrArg Prod.snd hstep
        rcases ih (processNode resolve base n st) with ⟨ha, hb⟩
        rw [hanch]
        exact ⟨by rw [ha, hl, hs], by rw [hb, hs]⟩
      · rw [hent] at hstep hanch
        dsimp only at hstep hanch
        by_cases hseen : st.seen.contains l.toURL = true
        · rw [if_pos hseen] at hstep
          have hl : (processNode resolve base n st).links = st.links :=
            congrArg Prod.fst hstep
          have hs : (processNode resolve base n st).seen = st.seen :=
            congrArg Prod.snd hstep
          rcases ih (processNode resolve base n st) with ⟨ha, hb⟩
          rw [hanch]
          constructor
          · rw [ha, hl, hs, dedupByHref, if_pos hseen]
          · rw [hb, hs, seenAfter, if_pos hseen]
        · have hseen' : st.seen.contains l.toURL = false := by simpa using hseen
          rw [if_neg hseen] at hstep
          have hl : (processNode resolve base n st).links = st.links ++ [l] :=
            congrArg Prod.fst hstep
          have hs : (processNode resolve base n st).seen = l.toURL :: st.seen :=
            congrArg Prod.snd hstep
          rcases ih (processNode resolve base n st) with ⟨ha, hb⟩
          rw [hanch]
          constructor
          · rw [ha, hl, hs, dedupByHref, if_neg hseen, List.append_assoc,
              List.singleton_append]
          · rw [hb, hs, seenAfter, if_neg hseen]

theorem dedupByHref_nodup (ls : List Link) (seen : List String) :
    ((dedupByHref ls seen).map Link.toURL).Nodup ∧
    (∀ u ∈ (dedupByHref ls seen).map Link.toURL, seen.contains u = false) := by
  induction ls generalizing seen with
  | nil =>
      exact ⟨List.nodup_nil, fun u hu => absurd hu (List.not_mem_nil u)⟩
  | cons l rest ih =>
      rw [dedupByHref]
      by_cases hc : seen.contains l.toURL = true
      · rw [if_pos hc]
        exact ih seen
      · have hc' : seen.contains l.toURL = false := by simpa using hc
        rw [if_neg hc]
        rcases ih (l.toURL :: seen) with ⟨ha, hb⟩
        constructor
        · rw [List.map_cons, List.nodup_cons]
          refine ⟨?_, ha⟩
          intro hmem
          have hcon := hb _ hmem
          rw [List.contains_cons] at hcon
          simp at hcon
        · intro u hu
          rw [List.map_cons] at hu
          rcases List.mem_cons.mp hu with rfl | hmem
          · exact hc'
          · have hcon := hb u hmem
            rw [List.contains_cons] at hcon
            simp only [Bool.or_eq_false_iff] at hcon
            exact hcon.2

theorem mem_dedupByHref {ls : List Link} {seen : List String} {l : Link}
    (h : l ∈ dedupByHref ls seen) : l ∈ ls := by
  induction ls generalizing seen with
  | nil =>
      rw [dedupByHref] at h
      exact absurd h (List.not_mem_nil l)
  | cons x rest ih =>
      rw [dedupByHref] at h
      by_cases hc : seen.contains x.toURL = true
      · rw [if_pos hc] at h
        exact List.mem_cons_of_mem x (ih h)
      · rw [if_neg hc] at h
        rcases List.mem_cons.mp h with rfl | hm
        · exact List.mem_cons_self l rest
        · exact List.mem_cons_of_mem x (ih hm)

/-- The links of the extraction result are exactly the document-order anchor
entries, deduplicated by href with first occurrence winning. -/
theorem extract_links_eq (resolve : String → String → String) (base : String)
    (doc : HNode) :
    (extractLinksTitleDesc resolve base doc).links
      = dedupByHref (docAnchors resolve base (docNodes doc)) [] := by
  show (visitNode resolve base doc initExtractState).links = _
  rw [visitNode_eq_foldl resolve base doc initExtractState,
    (foldl_links_seen resolve base (docNodes doc) initExtractState).1]
  rw [show initExtractState.links = [] from rfl, List.nil_append,
    show initExtractState.seen = ([] : List String) from rfl]

/-! ### Claim C7 -/

/-- C7, counterexample: on a document whose first title element is empty and
which carries two meta descriptions, the extractor returns the second title
and the second description, while the claim predicts the default title x
(first title empty) and the first description D1. -/
theorem C7_counterexample :
    (extractLinksTitleDesc resolveURLModel "http://example.com/" c7doc).title = "Second" ∧
    (extractLinksTitleDesc resolveURLModel "http://example.com/" c7doc).desc = "D2" ∧
    claimTitle c7doc = "x" ∧
    claimDesc c7doc = "D1" ∧
    ("Second" : String) ≠ "x" ∧ ("D2" : String) ≠ "D1" := by
  refine ⟨?_, ?_, ?_, ?_, by decide, by decide⟩
  · with_unfolding_all decide
  · with_unfolding_all decide
  · with_unfolding_all decide
  · with_unfolding_all decide

/-- C7, amended: the returned title is the trimmed Data of the first child of
the first title element that has a child (empty title elements do not count
and a later title can win), defaulting to x when no such element exists or
the trimmed value is empty; the returned description is the captured content
of the LAST meta element with a name=description attribute and non-empty
trimmed content, defaulting to x. -/
theorem C7_title_desc_amended (resolve : String → String → String) (base : String)
    (doc : HNode) :
    (extractLinksTitleDesc resolve base doc).title
      = (match (docNodes doc).find? isTitleWithChild with
         | none => "x"
         | some tn => if titleValOf tn = "" then "x" else titleValOf tn) ∧
    (extractLinksTitleDesc resolve base doc).desc
      = (match (docNodes doc).reverse.find? isDescNode with
         | none => "x"
         | some m => if descValOf m = "" then "x" else descValOf m) := by
  have hv := visitNode_eq_foldl resolve base doc initExtractState
  constructor
  · show (if (visitNode resolve base doc initExtractState).title = "" then "x"
        else (visitNode resolve base doc initExtractState).title) = _
    rw [hv]
    have htit := foldl_title_not_found resolve base (docNodes doc) initExtractState rfl
    rcases hfind : (docNodes doc).find? isTitleWithChild with _ | tn
    · rw [hfind] at htit
      dsimp only at htit
      have h1 := ((Prod.mk.injEq _ _ _ _).mp htit).1
      rw [h1, show initExtractState.title = "" from rfl, if_pos rfl]
    · rw [hfind] at htit
      dsimp only at htit
      have h1 := ((Prod.mk.injEq _ _ _ _).mp htit).1
      rw [h1]
  · show (if (visitNode resolve base doc initExtractState).desc = "" then "x"
        else (visitNode resolve base doc initExtractState).desc) = _
    rw [hv]
    have hdes := foldl_desc resolve base (docNodes doc) initExtractState
    rcases hfind : (docNodes doc).reverse.find? isDescNode with _ | m
    · rw [hfind] at hdes
      dsimp only at hdes
      rw [hdes, show initExtractState.desc = "" from rfl, if_pos rfl]
    · rw [hfind] at hdes
      dsimp only at hdes
      rw [hdes]

/-! ### Claim C9 -/

/-- C9, counterexample: an anchor containing both a text node and an img
element gets as anchor text the concatenation of the trimmed text and the
resolved img src, not the resolved src alone, so the claimed img special case
fails whenever the anchor has any other text. -/
theorem C9_counterexample :
    (extractLinksTitleDesc resolveURLModel "http://e.com/" c9doc).links
      = [{ toURL := "/x", anchorText := "hihttp://e.com/p.png" }] ∧
    resolveURLModel "http://e.com/" "/p.png" = "http://e.com/p.png" ∧
    ("hihttp://e.com/p.png" : String) ≠ "http://e.com/p.png" := by
  refine ⟨?_, ?_, by decide⟩
  · with_unfolding_all decide
  · with_unfolding_all decide

/-- C9, amended: link extraction visits anchors in document order and emits
at most one link per distinct href (first occurrence wins, so the emitted
href list has no duplicates); an anchor whose computed text trims to empty
gets the text N/A; and an img descendant contributes its resolved src to the
concatenation forming the anchor text, alongside the contributions of the
other descendants, rather than replacing them. -/
theorem C9_links_amended (resolve : String → String → String) (base : String)
    (doc : HNode) :
    (extractLinksTitleDesc resolve base doc).links
      = dedupByHref (docAnchors resolve base (docNodes doc)) [] ∧
    (((extractLinksTitleDesc resolve base doc).links).map Link.toURL).Nodup := by
  refine ⟨extract_links_eq resolve base doc, ?_⟩
  rw [extract_links_eq resolve base doc]
  exact (dedupByHref_nodup _ _).1

/-! ### Claim C2 -/

/-- C2, counterexample: the graph handed to the PageRank engine stores the
raw href. The page at http://example.com/a with an anchor href /b stores the
link target /b, while resolving the href against the page URL gives
http://example.com/b. -/
theorem C2_counterexample :
    linkGraph [c2page] "http://example.com/a" = ["/b"] ∧
    resolveURLModel "http://example.com/a" "/b" = "http://example.com/b" ∧
    ("/b" : String) ≠ "http://example.com/b" := by
  refine ⟨?_, ?_, by decide⟩
  · with_unfolding_all decide
  · with_unfolding_all decide

/-- C2, amended: every link stored on a page (and hence every edge of the
graph the PageRank engine builds) carries the raw href attribute of some
anchor element of the page document, exactly as written; resolution against
the page URL happens only when the scheduler enqueues the link and when the
writer emits the link-map files, never in the stored graph. -/
theorem C2_links_raw_amended (resolve : String → String → String) (base : String)
    (doc : HNode) (l : Link)
    (hl : l ∈ (extractLinksTitleDesc resolve base doc).links) :
    ∃ n ∈ docNodes doc, anchorEntryOf resolve base n = some l ∧
      ∃ tag attrs kids, n = HNode.elem tag attrs kids ∧ tag = "a" ∧
        lastAttr attrs "href" = l.toURL := by
  rw [extract_links_eq resolve base doc] at hl
  have h1 : l ∈ docAnchors resolve base (docNodes doc) := mem_dedupByHref hl
  rcases List.mem_filterMap.mp h1 with ⟨n, hn, hfn⟩
  refine ⟨n, hn, hfn, ?_⟩
  cases n with
  | text d =>
      rw [show anchorEntryOf resolve base (HNode.text d) = none from rfl] at hfn
      exact absurd hfn (by simp)
  | other d kids =>
      rw [show anchorEntryOf resolve base (HNode.other d kids) = none from rfl] at hfn
      exact absurd hfn (by simp)
  | elem tag attrs kids =>
      rw [anchorEntryOf] at hfn
      by_cases ha : tag = "a"
      · rw [if_pos ha] at hfn
        by_cases hh : lastAttr attrs "href" = ""
        · rw [if_pos hh] at hfn
          exact absurd hfn (by simp)
        · rw [if_neg hh] at hfn
          have hrec := Option.some.inj hfn
          refine ⟨tag, attrs, kids, rfl, ha, ?_⟩
          rw [← hrec]
      · rw [if_neg ha] at hfn
        exact absurd hfn (by simp)

/-- Witness for C2 amended: the concrete document with a single anchor whose
href is the relative reference /b. -/
theorem C2_links_raw_amended_witness :
    ∃ n ∈ docNodes c2doc,
      anchorEntryOf resolveURLModel "http://example.com/a" n
          = some { toURL := "/b", anchorText := "link" } ∧
      ∃ tag attrs kids, n = HNode.elem tag attrs kids ∧ tag = "a" ∧
        lastAttr attrs "href" = "/b" :=
  C2_links_raw_amended resolveURLModel "http://example.com/a" c2doc
    { toURL := "/b", anchorText := "link" } (by with_unfolding_all decide)

end Crawlsmith
